import Mathlib

/-!
Verification of the WaveBlocksND core against its specification.

We give a shallow embedding of the quadrature-rule engine
(`GaussHermiteQR`, `GaussLaguerreQR`, `TensorProductQR`) and of the
wavepacket basis/coefficient engine (`HagedornWavepacketBase`).

Conventions of the embedding:
* numpy arrays become Lean `List`s (a 2-d `(n,1)` column becomes a flat
  list; a `k × n` array becomes a list of row lists);
* complex/float scalars become elements of an abstract field `K`
  (instantiated with `ℚ` for concrete evaluations); the transcendental
  primitives (`sqrt`, `exp`, powers, `π`) and the external root finders
  of scipy are abstract parameters, so every statement holds for all of
  them;
* Python exceptions become an explicit error type, raised through
  `Except` or recorded next to the (possibly partially mutated) state;
* the `BasisShape` capability, whose implementation is outside the
  staged sources, is modelled from its contract in the specification.
-/

set_option linter.unusedSectionVars false

/-- Python exceptions that the embedded code can raise. -/
inductive PyErr where
  | valueError : PyErr
  | nameError : PyErr
deriving DecidableEq, Repr

/-- Modelled from the spec: the external `BasisShape` capability.  The spec
requires "a finite set of D-dimensional non-negative multi-indices with a
bijective mapping to linear indices 0..K−1", supporting "multi-index
membership test, linear-index lookup for a contained multi-index, iteration
over contained multi-indices in a stable order, and reporting total basis
size".  `elems` is the stable iteration order, `lin` the linear-index
lookup. -/
structure BasisShape where
  elems : List (List ℕ)
  lin : List ℕ → ℕ

/-- The contract a `BasisShape` has to obey: distinct multi-indices, and
`lin` maps them injectively into `0..K−1`. -/
def BasisShape.valid (bs : BasisShape) : Prop :=
  bs.elems.Nodup ∧ (bs.elems.map bs.lin).Nodup ∧
    ∀ k ∈ bs.elems, bs.lin k < bs.elems.length

instance (bs : BasisShape) : Decidable bs.valid := by
  unfold BasisShape.valid; exact inferInstance

/-- `get_basissize()` of a basis shape. -/
def BasisShape.size (bs : BasisShape) : ℕ := bs.elems.length

/-- numpy fancy assignment `base[js] = vs` for an index array `js` and a
value array `vs`: set the listed positions one after the other. -/
def scatter {K : Type} (base : List K) (js : List ℕ) (vs : List K) : List K :=
  (js.zip vs).foldl (fun acc p => acc.set p.1 p.2) base

section StoreDefs

variable {K : Type} [Field K] [DecidableEq K]

/-- `HagedornWavepacketBase._resize_coefficient_storage`, acting on the
coefficient column `c` of one component: intersect the old and the new
basis shape (iterating over the smaller one), build the old and new linear
index arrays, and scatter the old values into a fresh zero column of the
new size. -/
def resize_coefficient_storage (bs_old bs_new : BasisShape) (c : List K) :
    List K :=
  let bso := bs_old.size
  let bsn := bs_new.size
  let insec :=
    if bso ≤ bsn then bs_old.elems.filter (fun k => k ∈ bs_new.elems)
    else bs_new.elems.filter (fun k => k ∈ bs_old.elems)
  let i := insec.map bs_old.lin
  let j := insec.map bs_new.lin
  scatter (List.replicate bsn (0 : K)) j (i.map (fun a => c.getD a 0))

/-- The state of a `HagedornWavepacketBase` object, as far as basis shapes
and coefficients are concerned.  `n_components`, `basis_shapes`,
`basis_sizes` and `coefficients` mirror the attributes `_number_components`,
`_basis_shapes`, `_basis_sizes` and `_coefficients`. -/
structure WPState (K : Type) where
  n_components : ℕ
  basis_shapes : List BasisShape
  basis_sizes : List ℕ
  coefficients : List (List K)

/-- Outcome of a mutator: the (possibly partially mutated) final state,
together with the exception it raised, if any. -/
structure MutResult (K : Type) where
  state : WPState K
  err : Option PyErr

/-- The default value used when reading a shape list out of range. -/
def emptyShape : BasisShape := ⟨[], fun _ => 0⟩

/-- `set_basis_shape(basis_shape, component=i)` (the single-component
branch): validate the component index, resize the coefficient storage,
store the new shape and refresh the cached basis sizes. -/
def set_basis_shape_comp (st : WPState K) (i : ℕ) (bs : BasisShape) :
    Except PyErr (WPState K) :=
  if ¬ i < st.n_components then .error .valueError
  else
    let cnew := resize_coefficient_storage (st.basis_shapes.getD i emptyShape) bs
      (st.coefficients.getD i [])
    let shapes := st.basis_shapes.set i bs
    .ok { st with
      basis_shapes := shapes
      coefficients := st.coefficients.set i cnew
      basis_sizes := shapes.map BasisShape.size }

/-- `set_basis_shape(basis_shape, component=None)`: check the list length
against the number of components, then resize every component in turn and
finally refresh the cached basis sizes. -/
def set_basis_shape_all (st : WPState K) (bss : List BasisShape) :
    MutResult K :=
  if ¬ bss.length = st.n_components then ⟨st, some .valueError⟩
  else
    let st1 := bss.enum.foldl (fun s p =>
      let cnew := resize_coefficient_storage (s.basis_shapes.getD p.1 emptyShape)
        p.2 (s.coefficients.getD p.1 [])
      { s with
        basis_shapes := s.basis_shapes.set p.1 p.2
        coefficients := s.coefficients.set p.1 cnew }) st
    ⟨{ st1 with basis_sizes := st1.basis_shapes.map BasisShape.size }, none⟩

/-- numpy `array.reshape((bs, 1))` on a 1-d array of values: succeeds
exactly when the array has `bs` entries, otherwise raises `ValueError`. -/
def np_reshape_col (v : List K) (bs : ℕ) : Except PyErr (List K) :=
  if v.length = bs then .ok v else .error .valueError

/-- The per-component loop of `set_coefficients(values, component=None)`:
`self._coefficients[index] = value.copy().reshape((bs,1))` for each entry.
A reshape failure raises after the earlier components were already
overwritten. -/
def set_coefficients_all_go (s : WPState K) : List (ℕ × List K) → MutResult K
  | [] => ⟨s, none⟩
  | (idx, value) :: rest =>
      match np_reshape_col value (s.basis_sizes.getD idx 0) with
      | .error e => ⟨s, some e⟩
      | .ok col =>
          set_coefficients_all_go
            { s with coefficients := s.coefficients.set idx col } rest

/-- `set_coefficients(values, component=None)`: count check, then the
assignment loop. -/
def set_coefficients_all (st : WPState K) (values : List (List K)) :
    MutResult K :=
  if ¬ values.length = st.n_components then ⟨st, some .valueError⟩
  else set_coefficients_all_go st values.enum

/-- `set_coefficients(values, component)` with a single component given:
after the range check on `component`, the code executes
`self._coefficients[component] = value.copy().reshape((bs,1))` — but the
parameter of the method is named `values`, and no name `value` is bound in
this branch, so Python raises `NameError` before anything is stored. -/
def set_coefficients_comp (st : WPState K) (values : List K)
    (component : ℕ) : MutResult K :=
  if st.n_components ≤ component then ⟨st, some .valueError⟩
  else ⟨st, some .nameError⟩

/-- `get_coefficient_vector()`: stack all coefficient columns. -/
def get_coefficient_vector (st : WPState K) : List K :=
  st.coefficients.flatten

/-- numpy `cumsum` of a list of naturals. -/
def np_cumsum (l : List ℕ) : List ℕ := (l.scanl (· + ·) 0).tail

/-- numpy `vsplit(v, ps)` on a column vector: the slices
`v[0:p₁], v[p₁:p₂], …, v[pₗ:]`.  `prev` is the lower bound of the next
slice. -/
def vsplit_go (v : List K) : List ℕ → ℕ → List (List K)
  | [], prev => [v.drop prev]
  | p :: ps, prev => ((v.take p).drop prev) :: vsplit_go v ps p

/-- `set_coefficient_vector(vector)`: split the stacked column at the
partition given by the cumulative basis sizes and adopt the pieces. -/
def set_coefficient_vector (st : WPState K) (v : List K) : WPState K :=
  let partition := (np_cumsum st.basis_sizes).dropLast
  { st with coefficients := vsplit_go v partition 0 }

end StoreDefs

/-- The intersection list `_resize_coefficient_storage` iterates over. -/
def resize_insec (bs_old bs_new : BasisShape) : List (List ℕ) :=
  if bs_old.size ≤ bs_new.size then
    bs_old.elems.filter (fun k => k ∈ bs_new.elems)
  else bs_new.elems.filter (fun k => k ∈ bs_old.elems)

/-- The running partial sums `o+s₁, o+s₁+s₂, …` of a size list, starting
from offset `o`: the boundaries that `np_cumsum` produces. -/
def bnds : List ℕ → ℕ → List ℕ
  | [], _ => []
  | s :: l, o => (o + s) :: bnds l (o + s)

section Phi0Defs

variable {K : Type} [Field K] (d : ℕ)

/-- numpy `linalg.inv(Q)`: the inverse of a square matrix, written through
the adjugate so that it stays computable; for invertible `Q` this is the
matrix inverse that numpy computes. -/
def npinv (Q : Matrix (Fin d) (Fin d) K) : Matrix (Fin d) (Fin d) K :=
  Q.det⁻¹ • Q.adjugate

/-- numpy `P * M` on two 2-d ndarrays: the elementwise (Hadamard) product,
not the matrix product. -/
def np_hadamard (P M : Matrix (Fin d) (Fin d) K) :
    Matrix (Fin d) (Fin d) K :=
  Matrix.of fun i j => P i j * M i j

/-- The quadratic part `pr1 = sum(df * dot(P*inv(Q), df), axis=0)` of
`HagedornWavepacketBase._evaluate_phi0`, per node column (`df = x − q`),
exactly as the code computes it: `P*inv(Q)` is the elementwise product of
`P` and `inv(Q)`, which `dot` then applies to the column. -/
def phi0_pr1 (P Q : Matrix (Fin d) (Fin d) K) (df : Fin d → K) : K :=
  ∑ i, df i * (np_hadamard d P (npinv d Q)).mulVec df i

/-- The quadratic form stated by the specification for `_evaluate_phi0`:
`df · (P·Q⁻¹) · df` with the matrix product of `P` and the inverse of
`Q`. -/
def phi0_pr1_spec (P Q : Matrix (Fin d) (Fin d) K) (df : Fin d → K) : K :=
  ∑ i, df i * (P * npinv d Q).mulVec df i

/-- The linear part `pr2 = sum(p * df, axis=0)` of `_evaluate_phi0`, per
node column. -/
def phi0_pr2 (p df : Fin d → K) : K := ∑ i, p i * df i

/-- `HagedornWavepacketBase._evaluate_phi0` per node column `x`, over an
abstract scalar field: `cexp` is the complex exponential, `hpow` the float
power, `im` the imaginary unit, `piv` the constant `π`, `eps` the packet's
`ε`.  `exponent = i/(2ε²)·pr1 + i/ε²·pr2`; the prefactor is
`(π·ε²)^(−d·0.25)`, times `det(Q)^(−0.5)` when `prefactor` is `True`. -/
def evaluate_phi0 (cexp : K → K) (hpow : K → K → K) (im piv eps : K)
    (q p : Fin d → K) (Q P : Matrix (Fin d) (Fin d) K) (prefactor : Bool)
    (x : Fin d → K) : K :=
  let df := fun i => x i - q i
  let pr1 := phi0_pr1 d P Q df
  let pr2 := phi0_pr2 d p df
  let exponent := im / (2 * eps ^ 2) * pr1 + im / eps ^ 2 * pr2
  let pref :=
    if prefactor then
      hpow (piv * eps ^ 2) (-((d : K) * (1 / 4))) * hpow Q.det (-(1 / 2))
    else hpow (piv * eps ^ 2) (-((d : K) * (1 / 4)))
  pref * cexp exponent

end Phi0Defs

section QRDefs

variable {K : Type} [LinearOrderedField K]
variable (sqrtf expf : K → K) (powf : K → K → K) (piv : K)

/-- One row-update step of the three-term Hermite recursion:
`H[k] = sqrt(2/k)·x·H[k−1] − sqrt((k−1)/k)·H[k−2]`, evaluated elementwise
over the node array. -/
def hermite_step (k : ℕ) (nodes hk1 hk2 : List K) : List K :=
  List.zipWith (fun x p => sqrtf (2 / (k : K)) * x * p.1
    - sqrtf (((k : K) - 1) / (k : K)) * p.2) nodes (hk1.zip hk2)

/-- `GaussHermiteQR._hermite_recursion`: `H` is an `order × N` zero array;
row 0 is always filled, rows `1 … order−1` only when `order > 1`. -/
def hermite_recursion_gh (order : ℕ) (nodes : List K) : List (List K) :=
  let H := List.replicate order (List.replicate nodes.length (0 : K))
  let H := H.set 0
    (nodes.map fun x => powf piv (-(1 / 4 : K)) * expf (-(1 / 2 : K) * x ^ 2))
  if 1 < order then
    let H := H.set 1
      (List.zipWith (fun x h => sqrtf 2 * x * h) nodes (H.getD 0 []))
    (List.range' 2 (order - 2)).foldl (fun Hc k =>
      Hc.set k (hermite_step sqrtf k nodes (Hc.getD (k - 1) [])
        (Hc.getD (k - 2) []))) H
  else H

/-- `GaussLaguerreQR._hermite_recursion`: `H` is a `2·order × N` zero
array; row 0 is always filled, but rows `1 … 2·order−1` are only filled
when `order > 1` (the guard tests `order`, not the row count `2·order`). -/
def hermite_recursion_gl (order : ℕ) (nodes : List K) : List (List K) :=
  let H := List.replicate (2 * order) (List.replicate nodes.length (0 : K))
  let H := H.set 0
    (nodes.map fun x => powf piv (-(1 / 4 : K)) * expf (-(1 / 2 : K) * x ^ 2))
  if 1 < order then
    let H := H.set 1
      (List.zipWith (fun x h => sqrtf 2 * x * h) nodes (H.getD 0 []))
    (List.range' 2 (2 * order - 2)).foldl (fun Hc k =>
      Hc.set k (hermite_step sqrtf k nodes (Hc.getD (k - 1) [])
        (Hc.getD (k - 2) []))) H
  else H

/-- The section 4.1 recursion exactly as the specification states it, as a
function of the order: `H[0] = π^(−1/4)·exp(−x²/2)`, `H[1] = √2·x·H[0]`,
and `H[k] = √(2/k)·x·H[k−1] − √((k−1)/k)·H[k−2]` for `k ≥ 2`; every row is
defined, with no order guard. -/
def hermite_fun_spec (x : K) : ℕ → K
  | 0 => powf piv (-(1 / 4 : K)) * expf (-(1 / 2 : K) * x ^ 2)
  | 1 => sqrtf 2 * x * hermite_fun_spec x 0
  | (k + 2) => sqrtf (2 / ((k + 2 : ℕ) : K)) * x * hermite_fun_spec x (k + 1)
      - sqrtf ((((k + 2 : ℕ) : K) - 1) / ((k + 2 : ℕ) : K)) *
        hermite_fun_spec x k

/-- The nodes and weights a constructed 1-d quadrature rule stores. -/
structure QRData (K : Type) where
  order : ℕ
  nodes : List K
  weights : List K
deriving DecidableEq

/-- `GaussHermiteQR.__init__`, parametrized by the external root finder
`h_roots`: validate the order (raising `ValueError` before the root finder
runs and before any node or weight array exists), fetch the raw roots,
discard the raw weights and recompute `ω_i = 1/(H[order−1,i]²·order)` from
the Hermite recursion. -/
def GaussHermiteQR_construct (h_roots : ℕ → List K × List K) (order : ℕ) :
    Except PyErr (QRData K) :=
  if ¬ order > 0 then .error .valueError
  else
    let nodes := (h_roots order).1
    let h := (hermite_recursion_gh sqrtf expf powf piv order nodes).getD
      (order - 1) []
    let weights := h.map fun hv => 1 / (hv ^ 2 * (order : K))
    .ok ⟨order, nodes, weights⟩

/-- Modelled from the spec: scipy's `la_roots(order, a)` — an external
numeric primitive not part of this repository — requires the
generalized-Laguerre shape parameter to satisfy `a > −1` and raises
`ValueError` otherwise; for valid arguments it returns the roots and raw
weights. -/
def la_roots_checked (la_roots : ℕ → K → List K × List K) (order : ℕ)
    (a : K) : Except PyErr (List K × List K) :=
  if a ≤ -1 then .error .valueError else .ok (la_roots order a)

/-- `GaussLaguerreQR.__init__`, parametrized by the external root finder:
validate the order (raising `ValueError` before the root finder runs and
before any node or weight array exists), fetch the generalized-Laguerre
roots, and recompute the weights from the Hermite recursion evaluated at
`sqrt(nodes)`:
`ω_i = √(2R−1)/(√2·(R²−R/2)) · √(node_i)/(H[2R−2,i]·H[2R−1,i])`. -/
def GaussLaguerreQR_construct (la_roots : ℕ → K → List K × List K)
    (order : ℕ) (a : K) : Except PyErr (QRData K) :=
  if ¬ order > 0 then .error .valueError
  else
    match la_roots_checked la_roots order a with
    | .error e => .error e
    | .ok nw =>
        let nodes := nw.1
        let h := hermite_recursion_gl sqrtf expf powf piv order
          (nodes.map sqrtf)
        let c := sqrtf (2 * (order : K) - 1) /
          (sqrtf 2 * ((order : K) ^ 2 - (order : K) / 2))
        let weights := List.zipWith (fun x hh => c * sqrtf x / hh) nodes
          (List.zipWith (· * ·) (h.getD (2 * order - 2) [])
            (h.getD (2 * order - 1) []))
        .ok ⟨order, nodes, weights⟩

end QRDefs

/-- All combinations of one entry from each list, `meshgrid_nd`-style
(modelled from the spec for the missing `Utils.meshgrid_nd`): row-major
order with the last list varying fastest, matching the C-order `flatten`
used by `TensorProductQR.tensor_product`. -/
def cartProd {α : Type} : List (List α) → List (List α)
  | [] => [[]]
  | xs :: rest => xs.flatMap fun x => (cartProd rest).map fun t => x :: t

/-- The combined node columns of `TensorProductQR.tensor_product`: every
combination of one node from each constituent rule (a rule is represented
by its `(nodes, weights)` pair). -/
def tensor_product_nodes {K : Type} (rules : List (List K × List K)) :
    List (List K) :=
  cartProd (rules.map Prod.fst)

/-- The combined weights of `TensorProductQR.tensor_product`: the same
outer combination of the constituent weights, multiplied elementwise
across constituents. -/
def tensor_product_weights {K : Type} [Field K]
    (rules : List (List K × List K)) : List K :=
  (cartProd (rules.map Prod.snd)).map List.prod

/-- `self._number_nodes = reduce(op.mul, [rule.get_number_nodes() ...])`
of `TensorProductQR.__init__` (for a non-empty rule list). -/
def tensor_number_nodes {K : Type} (rules : List (List K × List K)) : ℕ :=
  (rules.map fun r => r.1.length).prod

/-- A constructed one-dimensional quadrature rule, recorded by its
constructor arguments: `GaussHermiteQR(order, options)` or
`GaussLaguerreQR(order, a, options)`.  `O` is the type of the opaque
options mapping. -/
inductive QRule1 (K O : Type) where
  | gaussHermite (order : ℕ) (options : O)
  | gaussLaguerre (order : ℕ) (a : K) (options : O)
deriving DecidableEq

/-- A constructed rule covered by the round-trip claim: a one-dimensional
rule, or a `TensorProductQR` over such rules. -/
inductive QRule (K O : Type) where
  | one (q : QRule1 K O)
  | tensorProduct (rules : List (QRule1 K O)) (options : O)
deriving DecidableEq

/-- The mapping `get_description()` returns for a 1-d rule: type tag
(carried by the constructor), dimension, order, the shape parameter `a`
for Laguerre, and a deep copy of the options. -/
inductive QRDescr1 (K O : Type) where
  | gaussHermite (dimension : ℕ) (order : ℕ) (options : O)
  | gaussLaguerre (dimension : ℕ) (order : ℕ) (a : K) (options : O)
deriving DecidableEq

/-- The mapping `get_description()` returns for a rule:
`TensorProductQR.get_description()` nests each constituent's description
under `qr_rules`. -/
inductive QRDescr (K O : Type) where
  | one (d : QRDescr1 K O)
  | tensorProduct (dimension : ℕ) (qr_rules : List (QRDescr1 K O))
      (options : O)
deriving DecidableEq

/-- `GaussHermiteQR.get_description` / `GaussLaguerreQR.get_description`. -/
def QRule1.get_description {K O : Type} : QRule1 K O → QRDescr1 K O
  | .gaussHermite order opts => .gaussHermite 1 order opts
  | .gaussLaguerre order a opts => .gaussLaguerre 1 order a opts

/-- `TensorProductQR.get_description` (and the trivial case of a bare 1-d
rule). -/
def QRule.get_description {K O : Type} : QRule K O → QRDescr K O
  | .one q => .one q.get_description
  | .tensorProduct rules opts =>
      .tensorProduct rules.length (rules.map QRule1.get_description) opts

/-- Modelled from the spec: reconstructing a 1-d rule from its description
("the same type with the same order, a, and options") is done by factory
code outside the staged sources; it runs the constructor, which enforces
the preconditions. -/
def QRDescr1.reconstruct {K O : Type} [LinearOrderedField K] :
    QRDescr1 K O → Option (QRule1 K O)
  | .gaussHermite _ order opts =>
      if 0 < order then some (.gaussHermite order opts) else none
  | .gaussLaguerre _ order a opts =>
      if 0 < order ∧ -1 < a then some (.gaussLaguerre order a opts) else none

/-- Modelled from the spec: reconstructing a rule from its description;
for the tensor product, "re-composing constituents reconstructed from the
nested qr_rules descriptions". -/
def QRDescr.reconstruct {K O : Type} [LinearOrderedField K] :
    QRDescr K O → Option (QRule K O)
  | .one d => d.reconstruct.map .one
  | .tensorProduct _ ds opts =>
      (ds.mapM QRDescr1.reconstruct).map fun rs => .tensorProduct rs opts

/-- The constructor preconditions of a 1-d rule. -/
def QRule1.valid {K O : Type} [LinearOrderedField K] : QRule1 K O → Prop
  | .gaussHermite order _ => 0 < order
  | .gaussLaguerre order a _ => 0 < order ∧ -1 < a

/-- The constructor preconditions of a rule (a tensor product needs a
non-empty list of valid constituents). -/
def QRule.valid {K O : Type} [LinearOrderedField K] : QRule K O → Prop
  | .one q => q.valid
  | .tensorProduct rules _ => rules ≠ [] ∧ ∀ q ∈ rules, q.valid

instance {K O : Type} [LinearOrderedField K] (q : QRule1 K O) :
    Decidable q.valid := by
  cases q with
  | gaussHermite order opts => exact inferInstanceAs (Decidable (0 < order))
  | gaussLaguerre order a opts =>
      exact inferInstanceAs (Decidable (0 < order ∧ -1 < a))

instance {K O : Type} [LinearOrderedField K] (r : QRule K O) :
    Decidable r.valid := by
  cases r with
  | one q => exact inferInstanceAs (Decidable q.valid)
  | tensorProduct rules opts =>
      cases rules with
      | nil => exact .isFalse fun h => h.1 rfl
      | cons q qs =>
          exact decidable_of_iff (∀ x ∈ q :: qs, QRule1.valid x)
            ⟨fun h => ⟨by simp, h⟩, fun h => h.2⟩

section QRBuildDefs

variable {K O : Type} [LinearOrderedField K]
variable (sqrtf expf : K → K) (powf : K → K → K) (piv : K)
variable (h_roots : ℕ → List K × List K) (la_roots : ℕ → K → List K × List K)

/-- The nodes and weights a 1-d rule computes at construction. -/
def QRule1.build : QRule1 K O → Except PyErr (QRData K)
  | .gaussHermite order _ =>
      GaussHermiteQR_construct sqrtf expf powf piv h_roots order
  | .gaussLaguerre order a _ =>
      GaussLaguerreQR_construct sqrtf expf powf piv la_roots order a

/-- The node and weight arrays a rule computes at construction: a 1-d rule
stores its own `1 × N` node array and weights; `TensorProductQR.__init__`
combines the constituents' arrays through `tensor_product`. -/
def QRule.build : QRule K O → Except PyErr (List (List K) × List K)
  | .one q =>
      (q.build sqrtf expf powf piv h_roots la_roots).map fun d =>
        ([d.nodes], d.weights)
  | .tensorProduct rules _ =>
      (rules.mapM fun q =>
          QRule1.build sqrtf expf powf piv h_roots la_roots q).map
        fun ds =>
          (tensor_product_nodes (ds.map fun d => (d.nodes, d.weights)),
           tensor_product_weights (ds.map fun d => (d.nodes, d.weights)))

end QRBuildDefs

section ScatterLemmas

variable {K : Type}

theorem scatter_length (base : List K) (js : List ℕ) (vs : List K) :
    (scatter base js vs).length = base.length := by
  unfold scatter
  generalize js.zip vs = ps
  induction ps generalizing base with
  | nil => rfl
  | cons p ps ih => simpa [List.foldl_cons] using ih (base.set p.1 p.2)

theorem foldl_set_getD_not_mem (d : K) (ps : List (ℕ × K)) (base : List K)
    (t : ℕ) (ht : ∀ q ∈ ps, t ≠ q.1) :
    (ps.foldl (fun acc p => acc.set p.1 p.2) base).getD t d = base.getD t d := by
  induction ps generalizing base with
  | nil => rfl
  | cons p ps ih =>
      rw [List.foldl_cons, ih (base.set p.1 p.2) (fun q hq => ht q (by simp [hq]))]
      have hne : t ≠ p.1 := ht p (by simp)
      simp [List.getD, List.getElem?_set_ne (Ne.symm hne)]

theorem foldl_set_getD_mem (d : K) (ps : List (ℕ × K)) :
    ∀ (base : List K), (ps.map Prod.fst).Nodup → ∀ j v, (j, v) ∈ ps →
      j < base.length →
      (ps.foldl (fun acc p => acc.set p.1 p.2) base).getD j d = v := by
  induction ps with
  | nil =>
      intro base _ j v hmem _
      cases hmem
  | cons p ps ih =>
      intro base hnd j v hmem hlt
      rw [List.map_cons, List.nodup_cons] at hnd
      rcases List.mem_cons.mp hmem with h | h
      · subst h
        rw [List.foldl_cons]
        rw [foldl_set_getD_not_mem d ps (base.set j v) j ?_]
        · simp [List.getD, List.getElem?_set_self hlt]
        · intro q hq hjq
          refine hnd.1 ?_
          show j ∈ ps.map Prod.fst
          rw [hjq]
          exact List.mem_map_of_mem Prod.fst hq
      · rw [List.foldl_cons]
        exact ih (base.set p.1 p.2) hnd.2 j v h (by simpa using hlt)

end ScatterLemmas

section ResizeLemmas

variable {K : Type} [Field K] [DecidableEq K]

theorem resize_length (bs_old bs_new : BasisShape) (c : List K) :
    (resize_coefficient_storage bs_old bs_new c).length = bs_new.size := by
  unfold resize_coefficient_storage
  rw [scatter_length, List.length_replicate]

theorem mem_resize_insec (bs_old bs_new : BasisShape) (k : List ℕ) :
    k ∈ resize_insec bs_old bs_new ↔ k ∈ bs_old.elems ∧ k ∈ bs_new.elems := by
  unfold resize_insec
  by_cases h : bs_old.size ≤ bs_new.size <;>
    simp [h, List.mem_filter, and_comm]

theorem resize_insec_nodup (bs_old bs_new : BasisShape)
    (ho : bs_old.valid) (hn : bs_new.valid) :
    (resize_insec bs_old bs_new).Nodup := by
  unfold resize_insec
  by_cases h : bs_old.size ≤ bs_new.size <;>
    simp [h, List.Nodup.filter, ho.1, hn.1]

theorem resize_eq_scatter (bs_old bs_new : BasisShape) (c : List K) :
    resize_coefficient_storage bs_old bs_new c =
      scatter (List.replicate bs_new.size (0 : K))
        ((resize_insec bs_old bs_new).map bs_new.lin)
        (((resize_insec bs_old bs_new).map bs_old.lin).map
          (fun a => c.getD a 0)) := by
  unfold resize_coefficient_storage resize_insec
  by_cases h : bs_old.size ≤ bs_new.size <;> simp [h]

theorem resize_pairs (bs_old bs_new : BasisShape) (c : List K) :
    resize_coefficient_storage bs_old bs_new c =
      ((resize_insec bs_old bs_new).map
        (fun k => (bs_new.lin k, c.getD (bs_old.lin k) 0))).foldl
          (fun acc p => acc.set p.1 p.2)
          (List.replicate bs_new.size (0 : K)) := by
  rw [resize_eq_scatter]
  unfold scatter
  rw [List.map_map, List.zip_map']
  rfl

theorem resize_targets_nodup (bs_old bs_new : BasisShape)
    (ho : bs_old.valid) (hn : bs_new.valid) (c : List K) :
    (((resize_insec bs_old bs_new).map
      (fun k => (bs_new.lin k, c.getD (bs_old.lin k) 0))).map Prod.fst).Nodup := by
  rw [List.map_map]
  have : (Prod.fst ∘ fun k => (bs_new.lin k, c.getD (bs_old.lin k) 0)) =
      bs_new.lin := rfl
  rw [this]
  refine List.Nodup.map_on ?_ (resize_insec_nodup bs_old bs_new ho hn)
  intro x hx y hy hxy
  exact List.inj_on_of_nodup_map hn.2.1
    ((mem_resize_insec bs_old bs_new x).mp hx).2
    ((mem_resize_insec bs_old bs_new y).mp hy).2 hxy

/-- After a resize, an intersection multi-index `k` carries its old value at
the new linear position. -/
theorem resize_getD_mem (bs_old bs_new : BasisShape)
    (ho : bs_old.valid) (hn : bs_new.valid) (c : List K) (k : List ℕ)
    (hko : k ∈ bs_old.elems) (hkn : k ∈ bs_new.elems) :
    (resize_coefficient_storage bs_old bs_new c).getD (bs_new.lin k) 0 =
      c.getD (bs_old.lin k) 0 := by
  rw [resize_pairs]
  refine foldl_set_getD_mem 0 _ _
    (resize_targets_nodup bs_old bs_new ho hn c) _ _
    (List.mem_map_of_mem _ ((mem_resize_insec bs_old bs_new k).mpr ⟨hko, hkn⟩)) ?_
  rw [List.length_replicate]
  exact hn.2.2 k hkn

/-- After a resize, a position that is not the new linear index of any
intersection multi-index is zero. -/
theorem resize_getD_not_mem (bs_old bs_new : BasisShape) (c : List K) (t : ℕ)
    (htlt : t < bs_new.size)
    (ht : ∀ k ∈ bs_new.elems, k ∈ bs_old.elems → t ≠ bs_new.lin k) :
    (resize_coefficient_storage bs_old bs_new c).getD t 0 = 0 := by
  rw [resize_pairs]
  rw [foldl_set_getD_not_mem 0 _ _ t ?_]
  · simp [List.getD, List.getElem?_replicate, htlt]
  · intro q hq
    rcases List.mem_map.mp hq with ⟨k, hk, rfl⟩
    rcases (mem_resize_insec bs_old bs_new k).mp hk with ⟨hko, hkn⟩
    exact ht k hkn hko

theorem set_basis_shape_comp_ok (st : WPState K) (i : ℕ) (bs : BasisShape)
    (hi : i < st.n_components) :
    set_basis_shape_comp st i bs = .ok
      { st with
        basis_shapes := st.basis_shapes.set i bs
        coefficients := st.coefficients.set i
          (resize_coefficient_storage (st.basis_shapes.getD i emptyShape) bs
            (st.coefficients.getD i []))
        basis_sizes := (st.basis_shapes.set i bs).map BasisShape.size } := by
  unfold set_basis_shape_comp
  simp [hi]

theorem getD_set_self {α : Type} (l : List α) (i : ℕ) (x : α) (d : α)
    (h : i < l.length) : (l.set i x).getD i d = x := by
  simp [List.getD, List.getElem?_set_self h]

end ResizeLemmas
section ClaimStoreLemmas

variable {K : Type} [Field K] [DecidableEq K]

/-- A successful single-component `set_basis_shape` call, with the fields of
the resulting state spelled out. -/
theorem set_basis_shape_comp_coeff (st : WPState K) (i : ℕ) (bs : BasisShape)
    (hi : i < st.n_components) (hilt : i < st.coefficients.length)
    (hislt : i < st.basis_shapes.length) :
    ∃ st1 : WPState K, set_basis_shape_comp st i bs = .ok st1 ∧
      st1.n_components = st.n_components ∧
      st1.coefficients.length = st.coefficients.length ∧
      st1.basis_shapes.length = st.basis_shapes.length ∧
      st1.coefficients.getD i [] =
        resize_coefficient_storage (st.basis_shapes.getD i emptyShape) bs
          (st.coefficients.getD i []) ∧
      st1.basis_shapes.getD i emptyShape = bs := by
  refine ⟨_, set_basis_shape_comp_ok st i bs hi, rfl, ?_, ?_, ?_, ?_⟩
  · show (st.coefficients.set i _).length = _
    rw [List.length_set]
  · show (st.basis_shapes.set i bs).length = _
    rw [List.length_set]
  · show (st.coefficients.set i _).getD i [] = _
    exact getD_set_self _ i _ _ hilt
  · show (st.basis_shapes.set i bs).getD i emptyShape = bs
    simp [List.getD, List.getElem?_set_self hislt]

end ClaimStoreLemmas

/-- C2: setting basis shape `B` on component `i` (old shape `A`) replaces
the coefficient vector of component `i` by a fresh column of length `|B|`
holding, at `B`'s linear index of every multi-index `k ∈ A ∩ B`, the old
entry at `A`'s linear index of `k`, and zero everywhere else. -/
theorem set_basis_shape_remaps_coefficients {K : Type} [Field K]
    [DecidableEq K] (st : WPState K) (i : ℕ) (A B : BasisShape)
    (hi : i < st.n_components)
    (hclen : st.coefficients.length = st.n_components)
    (hslen : st.basis_shapes.length = st.n_components)
    (hA : st.basis_shapes.getD i emptyShape = A)
    (hAv : A.valid) (hBv : B.valid) :
    ∃ st2 : WPState K, set_basis_shape_comp st i B = .ok st2 ∧
      (st2.coefficients.getD i []).length = B.size ∧
      (∀ k ∈ A.elems, k ∈ B.elems →
        (st2.coefficients.getD i []).getD (B.lin k) 0 =
          (st.coefficients.getD i []).getD (A.lin k) 0) ∧
      (∀ t < B.size, (∀ k ∈ A.elems, k ∈ B.elems → t ≠ B.lin k) →
        (st2.coefficients.getD i []).getD t 0 = 0) := by
  have hilt : i < st.coefficients.length := by rw [hclen]; exact hi
  have hislt : i < st.basis_shapes.length := by rw [hslen]; exact hi
  obtain ⟨st2, hok, _, _, _, hc, _⟩ :=
    set_basis_shape_comp_coeff st i B hi hilt hislt
  rw [hA] at hc
  refine ⟨st2, hok, ?_, ?_, ?_⟩
  · rw [hc, resize_length]
  · intro k hkA hkB
    rw [hc]
    exact resize_getD_mem A B hAv hBv _ k hkA hkB
  · intro t htlt ht
    rw [hc]
    exact resize_getD_not_mem A B _ t htlt (fun k hkB hkA => ht k hkA hkB)

/-- A concrete instance of the C2 theorem: one component with old shape
`{(0), (1)}`, coefficients `[5, 7]`, new shape `{(1), (2)}`; the remapped
vector holds `7` at the new position of `(1)` and `0` elsewhere. -/
theorem set_basis_shape_remaps_coefficients_witness :
    ∃ st2 : WPState ℚ,
      set_basis_shape_comp
        (⟨1, [⟨[[0], [1]], fun k => if k = [0] then 0 else 1⟩], [2], [[5, 7]]⟩ :
          WPState ℚ) 0
        ⟨[[1], [2]], fun k => if k = [1] then 0 else 1⟩ = .ok st2 ∧
      (st2.coefficients.getD 0 []).length = 2 ∧
      (∀ k ∈ [[0], [1]], k ∈ ([[1], [2]] : List (List ℕ)) →
        (st2.coefficients.getD 0 []).getD
          (if k = [1] then 0 else 1) 0 =
          (([[5, 7]] : List (List ℚ)).getD 0 []).getD
            (if k = [0] then 0 else 1) 0) ∧
      (∀ t < 2, (∀ k ∈ [[0], [1]], k ∈ ([[1], [2]] : List (List ℕ)) →
          t ≠ if k = [1] then 0 else 1) →
        (st2.coefficients.getD 0 []).getD t 0 = 0) :=
  set_basis_shape_remaps_coefficients
    (⟨1, [⟨[[0], [1]], fun k => if k = [0] then 0 else 1⟩], [2], [[5, 7]]⟩ :
      WPState ℚ) 0
    ⟨[[0], [1]], fun k => if k = [0] then 0 else 1⟩
    ⟨[[1], [2]], fun k => if k = [1] then 0 else 1⟩
    (by decide) (by decide) (by decide) rfl (by decide) (by decide)

/-- C8: changing the basis shape of component `i` from `A` to `B` and back
to `A` keeps every coefficient whose multi-index lies in both shapes and
zeroes every coefficient whose multi-index `A` has but `B` lacks. -/
theorem set_basis_shape_roundtrip {K : Type} [Field K] [DecidableEq K]
    (st : WPState K) (i : ℕ) (A B : BasisShape)
    (hi : i < st.n_components)
    (hclen : st.coefficients.length = st.n_components)
    (hslen : st.basis_shapes.length = st.n_components)
    (hA : st.basis_shapes.getD i emptyShape = A)
    (hAv : A.valid) (hBv : B.valid) :
    ∃ st1 st2 : WPState K,
      set_basis_shape_comp st i B = .ok st1 ∧
      set_basis_shape_comp st1 i A = .ok st2 ∧
      (∀ k ∈ A.elems, k ∈ B.elems →
        (st2.coefficients.getD i []).getD (A.lin k) 0 =
          (st.coefficients.getD i []).getD (A.lin k) 0) ∧
      (∀ k ∈ A.elems, k ∉ B.elems →
        (st2.coefficients.getD i []).getD (A.lin k) 0 = 0) := by
  have hilt : i < st.coefficients.length := by rw [hclen]; exact hi
  have hislt : i < st.basis_shapes.length := by rw [hslen]; exact hi
  obtain ⟨st1, h1, hn1, hcl1, hsl1, hc1, hs1⟩ :=
    set_basis_shape_comp_coeff st i B hi hilt hislt
  obtain ⟨st2, h2, _, _, _, hc2, _⟩ :=
    set_basis_shape_comp_coeff st1 i A (by rw [hn1]; exact hi)
      (by rw [hcl1]; exact hilt) (by rw [hsl1]; exact hislt)
  rw [hA] at hc1
  rw [hs1, hc1] at hc2
  refine ⟨st1, st2, h1, h2, ?_, ?_⟩
  · intro k hkA hkB
    rw [hc2, resize_getD_mem B A hBv hAv _ k hkB hkA,
      resize_getD_mem A B hAv hBv _ k hkA hkB]
  · intro k hkA hkB
    rw [hc2]
    refine resize_getD_not_mem B A _ (A.lin k) (hAv.2.2 k hkA) ?_
    intro k2 hk2A hk2B hlin
    refine hkB ?_
    rw [List.inj_on_of_nodup_map hAv.2.1 hkA hk2A hlin]
    exact hk2B

/-- A concrete instance of the C8 theorem: shapes `A = {(0),(1)}`,
`B = {(1),(2)}`, coefficients `[5, 7]`; after `A → B → A` the entry of
`(1)` is restored to `7` and the entry of `(0)` (dropped by `B`) is `0`. -/
theorem set_basis_shape_roundtrip_witness :
    ∃ st1 st2 : WPState ℚ,
      set_basis_shape_comp
        (⟨1, [⟨[[0], [1]], fun k => if k = [0] then 0 else 1⟩], [2], [[5, 7]]⟩ :
          WPState ℚ) 0
        ⟨[[1], [2]], fun k => if k = [1] then 0 else 1⟩ = .ok st1 ∧
      set_basis_shape_comp st1 0
        ⟨[[0], [1]], fun k => if k = [0] then 0 else 1⟩ = .ok st2 ∧
      (∀ k ∈ [[0], [1]], k ∈ ([[1], [2]] : List (List ℕ)) →
        (st2.coefficients.getD 0 []).getD (if k = [0] then 0 else 1) 0 =
          (([[5, 7]] : List (List ℚ)).getD 0 []).getD
            (if k = [0] then 0 else 1) 0) ∧
      (∀ k ∈ [[0], [1]], k ∉ ([[1], [2]] : List (List ℕ)) →
        (st2.coefficients.getD 0 []).getD (if k = [0] then 0 else 1) 0 = 0) :=
  set_basis_shape_roundtrip
    (⟨1, [⟨[[0], [1]], fun k => if k = [0] then 0 else 1⟩], [2], [[5, 7]]⟩ :
      WPState ℚ) 0
    ⟨[[0], [1]], fun k => if k = [0] then 0 else 1⟩
    ⟨[[1], [2]], fun k => if k = [1] then 0 else 1⟩
    (by decide) (by decide) (by decide) rfl (by decide) (by decide)

section VSplitLemmas

variable {α : Type}

theorem scanl_add_tail_eq_bnds (l : List ℕ) :
    ∀ o : ℕ, (l.scanl (· + ·) o).tail = bnds l o := by
  induction l with
  | nil => intro o; simp [List.scanl_nil, bnds]
  | cons s l ih =>
      intro o
      rw [List.scanl_cons]
      simp only [List.singleton_append, List.tail_cons]
      rw [show bnds (s :: l) o = (o + s) :: bnds l (o + s) from rfl, ← ih (o + s)]
      cases l with
      | nil => simp [List.scanl_nil]
      | cons t l2 =>
          rw [List.scanl_cons]
          simp

theorem np_cumsum_eq_bnds (l : List ℕ) : np_cumsum l = bnds l 0 := by
  unfold np_cumsum
  exact scanl_add_tail_eq_bnds l 0

theorem drop_take_append (v : List α) (a b : ℕ) (hab : a ≤ b)
    (ha : a ≤ v.length) :
    (v.take b).drop a ++ v.drop b = v.drop a := by
  conv_rhs => rw [← List.take_append_drop b v]
  rw [List.drop_append_of_le_length]
  rw [List.length_take]
  omega

theorem bnds_ne_nil (s : ℕ) (l : List ℕ) (o : ℕ) : bnds (s :: l) o ≠ [] := by
  simp [bnds]

/-- The central fact about `vsplit_go` run on the cumulative-sum partition:
the pieces have exactly the prescribed sizes and concatenate back to the
suffix of the vector from the starting offset. -/
theorem vsplit_go_spec :
    ∀ (l : List ℕ) (s : ℕ) (o : ℕ) (v : List α),
      v.length = o + s + l.sum →
      (vsplit_go v ((bnds (s :: l) o).dropLast) o).map List.length = s :: l ∧
      (vsplit_go v ((bnds (s :: l) o).dropLast) o).flatten = v.drop o := by
  intro l
  induction l with
  | nil =>
      intro s o v hv
      rw [show (bnds [s] o).dropLast = [] from rfl]
      unfold vsplit_go
      constructor
      · simp only [List.map_cons, List.map_nil, List.length_drop]
        rw [hv]
        simp
      · simp
  | cons t l ih =>
      intro s o v hv
      have hrec : (bnds (s :: t :: l) o).dropLast =
          (o + s) :: (bnds (t :: l) (o + s)).dropLast := by
        rw [show bnds (s :: t :: l) o = (o + s) :: bnds (t :: l) (o + s) from rfl]
        exact List.dropLast_cons_of_ne_nil (bnds_ne_nil t l (o + s))
      rw [hrec]
      unfold vsplit_go
      have hlen : v.length = (o + s) + t + l.sum := by
        rw [hv, List.sum_cons]
        omega
      obtain ⟨ihl, ihf⟩ := ih t (o + s) v hlen
      constructor
      · rw [List.map_cons, ihl]
        congr 1
        rw [List.length_drop, List.length_take]
        omega
      · rw [List.flatten_cons, ihf]
        exact drop_take_append v o (o + s) (by omega) (by omega)

end VSplitLemmas

/-- C10: for a state whose cached basis sizes are `s₁, …, s_N` (at least
one component) and a stacked column `v` of length `s₁+⋯+s_N`,
`set_coefficient_vector(v)` followed by `get_coefficient_vector()` returns
`v`, and the per-component vectors have lengths `s₁, …, s_N` in order. -/
theorem set_get_coefficient_vector_roundtrip {K : Type} [Field K]
    [DecidableEq K] (st : WPState K) (v : List K)
    (hne : st.basis_sizes ≠ [])
    (hv : v.length = st.basis_sizes.sum) :
    get_coefficient_vector (set_coefficient_vector st v) = v ∧
      (set_coefficient_vector st v).coefficients.map List.length =
        st.basis_sizes := by
  obtain ⟨s, l, hsl⟩ := List.exists_cons_of_ne_nil hne
  unfold get_coefficient_vector set_coefficient_vector
  rw [np_cumsum_eq_bnds, hsl]
  have hlen : v.length = 0 + s + l.sum := by
    rw [hv, hsl, List.sum_cons]
    omega
  obtain ⟨hmap, hflat⟩ := vsplit_go_spec l s 0 v hlen
  exact ⟨by rw [hflat, List.drop_zero], by rw [hmap]⟩

/-- A concrete instance of the C10 theorem: sizes `[2, 1]` and the stacked
vector `[1, 2, 3]` split into `[1, 2]` and `[3]` and stack back to the
original. -/
theorem set_get_coefficient_vector_roundtrip_witness :
    get_coefficient_vector (set_coefficient_vector
      (⟨2, [emptyShape, emptyShape], [2, 1], [[0, 0], [0]]⟩ : WPState ℚ)
      [1, 2, 3]) = [1, 2, 3] ∧
      (set_coefficient_vector
        (⟨2, [emptyShape, emptyShape], [2, 1], [[0, 0], [0]]⟩ : WPState ℚ)
        [1, 2, 3]).coefficients.map List.length = [2, 1] :=
  set_get_coefficient_vector_roundtrip
    (⟨2, [emptyShape, emptyShape], [2, 1], [[0, 0], [0]]⟩ : WPState ℚ)
    [1, 2, 3] (by decide) (by decide)

/-- C7 (amended): the count-mismatch failures are all-or-nothing — a
`set_basis_shape` call for all components with a list whose length differs
from the number of components, and a `set_coefficients` call for all
components with a value list of the wrong count, both raise `ValueError`
with every component's basis shape and coefficient vector left exactly as
before the call.  (A wrong-length array inside a correctly-sized value
list, in contrast, raises only after the earlier components were already
overwritten; see the counterexample.) -/
theorem count_mismatch_leaves_state_untouched {K : Type} [Field K]
    [DecidableEq K] (st : WPState K) (bss : List BasisShape)
    (values : List (List K))
    (h1 : bss.length ≠ st.n_components)
    (h2 : values.length ≠ st.n_components) :
    set_basis_shape_all st bss = ⟨st, some .valueError⟩ ∧
      set_coefficients_all st values = ⟨st, some .valueError⟩ := by
  constructor
  · unfold set_basis_shape_all
    simp [h1]
  · unfold set_coefficients_all
    simp [h2]

/-- A concrete instance of the C7 theorem: a two-component state rejects a
one-element basis-shape list and a one-element coefficient list without
mutating anything. -/
theorem count_mismatch_leaves_state_untouched_witness :
    set_basis_shape_all
        (⟨2, [emptyShape, emptyShape], [1, 1], [[5], [7]]⟩ : WPState ℚ)
        [emptyShape] =
      ⟨⟨2, [emptyShape, emptyShape], [1, 1], [[5], [7]]⟩, some .valueError⟩ ∧
      set_coefficients_all
        (⟨2, [emptyShape, emptyShape], [1, 1], [[5], [7]]⟩ : WPState ℚ)
        [[1]] =
      ⟨⟨2, [emptyShape, emptyShape], [1, 1], [[5], [7]]⟩, some .valueError⟩ :=
  count_mismatch_leaves_state_untouched
    (⟨2, [emptyShape, emptyShape], [1, 1], [[5], [7]]⟩ : WPState ℚ)
    [emptyShape] [[1]] (by decide) (by decide)

/-- Counterexample to C7 as stated: `set_coefficients` for all components
on a two-component state, with a correct-count value list whose second
array has the wrong length, raises — but only after component 0's
coefficient vector was already replaced, so the failure is not
all-or-nothing. -/
theorem set_coefficients_partial_mutation :
    (set_coefficients_all
        (⟨2, [emptyShape, emptyShape], [1, 1], [[5], [7]]⟩ : WPState ℚ)
        [[1], [2, 3]]).err = some .valueError ∧
      (set_coefficients_all
        (⟨2, [emptyShape, emptyShape], [1, 1], [[5], [7]]⟩ : WPState ℚ)
        [[1], [2, 3]]).state.coefficients ≠ [[5], [7]] := by
  constructor
  · rfl
  · decide

/-- C5: with a valid component index and a correct-length array,
`set_coefficients(values, component)` does not store anything: the
single-component branch reads the undefined name `value` (the parameter is
`values`), so the call raises `NameError` and the state is returned
unchanged. -/
theorem set_coefficients_single_component_nameerror :
    set_coefficients_comp (⟨1, [emptyShape], [2], [[5, 7]]⟩ : WPState ℚ)
        [1, 2] 0 =
      ⟨⟨1, [emptyShape], [2], [[5, 7]]⟩, some .nameError⟩ := rfl

/-- C1: the quadratic form inside `_evaluate_phi0` is NOT the spec's
`df · (P·Q⁻¹) · df`.  The code computes `dot(P*inv(Q), df)` where `*` on
ndarrays is the elementwise product, so already at `D = 2`, `ε = 1`,
`q = 0`, `Q = I`, `P = [[0,1],[1,0]]` and node column `x = (1,1)` the code
yields `pr1 = 0` while the claimed matrix-product form yields `pr1 = 2`. -/
theorem evaluate_phi0_quadratic_form_mismatch :
    phi0_pr1 2 (!![(0 : ℚ), 1; 1, 0]) 1 ![1, 1] = 0 ∧
      phi0_pr1_spec 2 (!![(0 : ℚ), 1; 1, 0]) 1 ![1, 1] = 2 ∧
      phi0_pr1 2 (!![(0 : ℚ), 1; 1, 0]) 1 ![1, 1] ≠
        phi0_pr1_spec 2 (!![(0 : ℚ), 1; 1, 0]) 1 ![1, 1] := by
  have hinv : npinv 2 (1 : Matrix (Fin 2) (Fin 2) ℚ) = 1 := by
    unfold npinv
    rw [Matrix.det_one, Matrix.adjugate_one]
    simp
  have h1 : phi0_pr1 2 (!![(0 : ℚ), 1; 1, 0]) 1 ![1, 1] = 0 := by
    unfold phi0_pr1 np_hadamard
    rw [hinv]
    simp [Matrix.mulVec, Matrix.dotProduct, Fin.sum_univ_two, Matrix.one_apply]
  have h2 : phi0_pr1_spec 2 (!![(0 : ℚ), 1; 1, 0]) 1 ![1, 1] = 2 := by
    unfold phi0_pr1_spec
    rw [hinv, mul_one]
    simp [Matrix.mulVec, Matrix.dotProduct, Fin.sum_univ_two]
    norm_num
  exact ⟨h1, h2, by rw [h1, h2]; norm_num⟩

/-- C4: at order `R = 1` the Laguerre Hermite-recursion array does not have
its rows filled up to order `2R−1 = 1`: the guard `if order > 1` skips row
1, which stays zero, while the section 4.1 recursion prescribes
`H[1] = √2·x·H[0]`.  Instantiated at `ℚ` with placeholder transcendental
primitives (`sqrt := id`, `exp := const 1`, `pow := const 1`), node `3`:
the code array is `[[1], [0]]` but the recursion value of row 1 is `6`,
so the weight formula divides by `H[0]·H[1] = 0`. -/
theorem gauss_laguerre_recursion_unfilled_at_order_one :
    hermite_recursion_gl (id : ℚ → ℚ) (fun _ => 1) (fun _ _ => 1) 1 1 [3] =
      [[1], [0]] ∧
      hermite_fun_spec (id : ℚ → ℚ) (fun _ => 1) (fun _ _ => 1) 1 3 1 = 6 ∧
      ((hermite_recursion_gl (id : ℚ → ℚ) (fun _ => 1) (fun _ _ => 1) 1 1
          [3]).getD 1 []).getD 0 0 ≠
        hermite_fun_spec (id : ℚ → ℚ) (fun _ => 1) (fun _ _ => 1) 1 3 1 := by
  refine ⟨?_, ?_, ?_⟩
  · norm_num [hermite_recursion_gl, List.replicate]
  · norm_num [hermite_fun_spec]
  · norm_num [hermite_recursion_gl, hermite_fun_spec, List.replicate]

/-- C6: constructing `GaussHermiteQR` with order `< 1`, or
`GaussLaguerreQR` with order `< 1` or shape parameter `a ≤ −1`, raises
`ValueError` at construction, before the root finder runs and before any
node or weight array exists; with order `≥ 1` (and `a > −1` for Laguerre)
construction succeeds.  The statement holds for every root finder and
every choice of the transcendental primitives. -/
theorem qr_construct_validation {K : Type} [LinearOrderedField K]
    (sqrtf expf : K → K) (powf : K → K → K) (piv : K)
    (h_roots : ℕ → List K × List K) (la_roots : ℕ → K → List K × List K)
    (order : ℕ) (a : K) :
    (order < 1 →
      GaussHermiteQR_construct sqrtf expf powf piv h_roots order =
        .error .valueError ∧
      GaussLaguerreQR_construct sqrtf expf powf piv la_roots order a =
        .error .valueError) ∧
    (0 < order → a ≤ -1 →
      GaussLaguerreQR_construct sqrtf expf powf piv la_roots order a =
        .error .valueError) ∧
    (0 < order → ∃ r : QRData K,
      GaussHermiteQR_construct sqrtf expf powf piv h_roots order = .ok r) ∧
    (0 < order → -1 < a → ∃ r : QRData K,
      GaussLaguerreQR_construct sqrtf expf powf piv la_roots order a =
        .ok r) := by
  refine ⟨?_, ?_, ?_, ?_⟩
  · intro h
    have h0 : ¬ order > 0 := by omega
    unfold GaussHermiteQR_construct GaussLaguerreQR_construct
    rw [if_pos h0, if_pos h0]
    exact ⟨rfl, rfl⟩
  · intro h ha
    unfold GaussLaguerreQR_construct la_roots_checked
    rw [if_neg (by omega), if_pos ha]
  · intro h
    simp only [GaussHermiteQR_construct, if_neg (not_not.mpr h)]
    exact ⟨_, rfl⟩
  · intro h ha
    simp only [GaussLaguerreQR_construct, la_roots_checked,
      if_neg (not_not.mpr h), if_neg (not_le.mpr ha)]
    exact ⟨_, rfl⟩

/-- Concrete instances of the C6 theorem at `ℚ`: order 0 is rejected by
both rules, `a = −2` is rejected by the Laguerre rule at order 2, and
order 2 (with `a = 0`) is accepted by both. -/
theorem qr_construct_validation_witness :
    (GaussHermiteQR_construct (id : ℚ → ℚ) (fun _ => 1) (fun _ _ => 1) 1
        (fun _ => ([], [])) 0 = .error .valueError ∧
      GaussLaguerreQR_construct (id : ℚ → ℚ) (fun _ => 1) (fun _ _ => 1) 1
        (fun _ _ => ([], [])) 0 0 = .error .valueError) ∧
      GaussLaguerreQR_construct (id : ℚ → ℚ) (fun _ => 1) (fun _ _ => 1) 1
        (fun _ _ => ([], [])) 2 (-2) = .error .valueError ∧
      (∃ r : QRData ℚ, GaussHermiteQR_construct (id : ℚ → ℚ) (fun _ => 1)
        (fun _ _ => 1) 1 (fun _ => ([], [])) 2 = .ok r) ∧
      (∃ r : QRData ℚ, GaussLaguerreQR_construct (id : ℚ → ℚ) (fun _ => 1)
        (fun _ _ => 1) 1 (fun _ _ => ([], [])) 2 0 = .ok r) :=
  ⟨(qr_construct_validation (id : ℚ → ℚ) (fun _ => 1) (fun _ _ => 1) 1
      (fun _ => ([], [])) (fun _ _ => ([], [])) 0 0).1 (by decide),
   (qr_construct_validation (id : ℚ → ℚ) (fun _ => 1) (fun _ _ => 1) 1
      (fun _ => ([], [])) (fun _ _ => ([], [])) 2 (-2)).2.1 (by decide)
      (by norm_num),
   (qr_construct_validation (id : ℚ → ℚ) (fun _ => 1) (fun _ _ => 1) 1
      (fun _ => ([], [])) (fun _ _ => ([], [])) 2 0).2.2.1 (by decide),
   (qr_construct_validation (id : ℚ → ℚ) (fun _ => 1) (fun _ _ => 1) 1
      (fun _ => ([], [])) (fun _ _ => ([], [])) 2 0).2.2.2 (by decide)
      (by norm_num)⟩

section TensorLemmas

variable {α β : Type}

theorem cartProd_length (ls : List (List α)) :
    (cartProd ls).length = (ls.map List.length).prod := by
  induction ls with
  | nil => rfl
  | cons xs rest ih =>
      show (xs.flatMap fun x => (cartProd rest).map fun t => x :: t).length = _
      rw [List.length_flatMap]
      simp only [Function.comp_def, List.length_map]
      rw [List.map_const', List.sum_replicate, smul_eq_mul, ih,
        List.map_cons, List.prod_cons]

theorem cartProd_map (f : α → β) (ls : List (List α)) :
    cartProd (ls.map (List.map f)) = (cartProd ls).map (List.map f) := by
  induction ls with
  | nil => rfl
  | cons xs rest ih =>
      show ((xs.map f).flatMap fun x =>
        (cartProd (rest.map (List.map f))).map fun t => x :: t) = _
      rw [ih, show cartProd (xs :: rest) =
        xs.flatMap fun x => (cartProd rest).map fun t => x :: t from rfl,
        List.map_flatMap, List.flatMap_map]
      simp only [List.map_map]
      rfl

theorem cartProd_mem_length (ls : List (List α)) (combo : List α)
    (h : combo ∈ cartProd ls) : combo.length = ls.length := by
  induction ls generalizing combo with
  | nil =>
      rw [show cartProd ([] : List (List α)) = [[]] from rfl] at h
      simp only [List.mem_singleton] at h
      rw [h]
      rfl
  | cons xs rest ih =>
      rw [show cartProd (xs :: rest) = xs.flatMap fun x =>
        (cartProd rest).map fun t => x :: t from rfl] at h
      rcases List.mem_flatMap.mp h with ⟨x, _, hmap⟩
      rcases List.mem_map.mp hmap with ⟨t, ht, rfl⟩
      simp [ih t ht]

theorem cartProd_mem_getD (dflt : α) (ls : List (List α)) (combo : List α)
    (h : combo ∈ cartProd ls) :
    ∀ d, d < ls.length → combo.getD d dflt ∈ ls.getD d [] := by
  induction ls generalizing combo with
  | nil =>
      intro d hd
      exact absurd hd (by simp)
  | cons xs rest ih =>
      rw [show cartProd (xs :: rest) = xs.flatMap fun x =>
        (cartProd rest).map fun t => x :: t from rfl] at h
      rcases List.mem_flatMap.mp h with ⟨x, hx, hmap⟩
      rcases List.mem_map.mp hmap with ⟨t, ht, rfl⟩
      intro d hd
      cases d with
      | zero => simpa using hx
      | succ d =>
          show t.getD d dflt ∈ rest.getD d []
          exact ih t ht d (by simpa using hd)

end TensorLemmas

/-- C3: for a non-empty list of 1-d rules (each a `(nodes, weights)` pair
with equally many weights as nodes, counts `N₁, …, N_D`), the tensor
product has exactly `N₁·…·N_D` node columns and as many weights, and at
every column index `c` there is a list of `(node, weight)` pairs — one
drawn from each constituent — whose nodes form the column and whose
weights multiply to the combined weight at `c`. -/
theorem tensor_product_nodes_weights {K : Type} [Field K]
    (rules : List (List K × List K)) (hne : rules ≠ [])
    (hlen : ∀ r ∈ rules, r.1.length = r.2.length) :
    (tensor_product_nodes rules).length = tensor_number_nodes rules ∧
      (tensor_product_weights rules).length = tensor_number_nodes rules ∧
      ∀ c, c < tensor_number_nodes rules →
        ∃ pairs : List (K × K), pairs.length = rules.length ∧
          (∀ d, d < rules.length →
            pairs.getD d (0, 0) ∈
              (rules.getD d ([], [])).1.zip (rules.getD d ([], [])).2) ∧
          (tensor_product_nodes rules).getD c [] = pairs.map Prod.fst ∧
          (tensor_product_weights rules).getD c 0 =
            (pairs.map Prod.snd).prod := by
  have hfst : rules.map Prod.fst =
      (rules.map fun r => r.1.zip r.2).map (List.map Prod.fst) := by
    rw [List.map_map]
    refine List.map_congr_left ?_
    intro r hr
    exact (List.map_fst_zip r.1 r.2 (le_of_eq (hlen r hr))).symm
  have hsnd : rules.map Prod.snd =
      (rules.map fun r => r.1.zip r.2).map (List.map Prod.snd) := by
    rw [List.map_map]
    refine List.map_congr_left ?_
    intro r hr
    exact (List.map_snd_zip r.1 r.2 (le_of_eq (hlen r hr).symm)).symm
  have hnodes : tensor_product_nodes rules =
      (cartProd (rules.map fun r => r.1.zip r.2)).map (List.map Prod.fst) := by
    unfold tensor_product_nodes
    rw [hfst, cartProd_map]
  have hweights : tensor_product_weights rules =
      (cartProd (rules.map fun r => r.1.zip r.2)).map
        (fun combo => (combo.map Prod.snd).prod) := by
    unfold tensor_product_weights
    rw [hsnd, cartProd_map, List.map_map]
    rfl
  have hplen : (((rules.map fun r => r.1.zip r.2)).map List.length).prod =
      tensor_number_nodes rules := by
    unfold tensor_number_nodes
    rw [List.map_map]
    refine congrArg List.prod (List.map_congr_left ?_)
    intro r hr
    show (r.1.zip r.2).length = r.1.length
    rw [List.length_zip, hlen r hr, min_self]
  have hL : (cartProd (rules.map fun r => r.1.zip r.2)).length =
      tensor_number_nodes rules := by
    rw [cartProd_length, hplen]
  refine ⟨by rw [hnodes, List.length_map, hL],
    by rw [hweights, List.length_map, hL], ?_⟩
  intro c hc
  have hc2 : c < (cartProd (rules.map fun r => r.1.zip r.2)).length := by
    rw [hL]; exact hc
  refine ⟨(cartProd (rules.map fun r => r.1.zip r.2)).getD c [], ?_, ?_, ?_, ?_⟩
  · have hmemc : (cartProd (rules.map fun r => r.1.zip r.2)).getD c [] ∈
        cartProd (rules.map fun r => r.1.zip r.2) := by
      rw [List.getD_eq_getElem _ _ hc2]
      exact List.getElem_mem hc2
    rw [cartProd_mem_length _ _ hmemc, List.length_map]
  · intro d hd
    have hmemc : (cartProd (rules.map fun r => r.1.zip r.2)).getD c [] ∈
        cartProd (rules.map fun r => r.1.zip r.2) := by
      rw [List.getD_eq_getElem _ _ hc2]
      exact List.getElem_mem hc2
    have hd2 : d < (rules.map fun r => r.1.zip r.2).length := by
      rw [List.length_map]; exact hd
    have := cartProd_mem_getD (0, 0) _ _ hmemc d hd2
    rw [List.getD_eq_getElem _ _ hd2, List.getElem_map] at this
    rw [List.getD_eq_getElem _ _ hd]
    exact this
  · rw [hnodes, List.getD_eq_getElem _ _ (by rw [List.length_map, hL]; exact hc),
      List.getElem_map, List.getD_eq_getElem _ _ hc2]
  · rw [hweights, List.getD_eq_getElem _ _ (by rw [List.length_map, hL]; exact hc),
      List.getElem_map, List.getD_eq_getElem _ _ hc2]

/-- A concrete instance of the C3 theorem: two constituent rules with 2 and
2 nodes give 4 combined columns, and at every column the combined weight is
the product of the two source weights attached to the two coordinates. -/
theorem tensor_product_nodes_weights_witness :
    (tensor_product_nodes
      ([([1, 2], [5, 7]), ([3, 4], [11, 13])] :
        List (List ℚ × List ℚ))).length =
      tensor_number_nodes
        ([([1, 2], [5, 7]), ([3, 4], [11, 13])] :
          List (List ℚ × List ℚ)) ∧
      (tensor_product_weights
        ([([1, 2], [5, 7]), ([3, 4], [11, 13])] :
          List (List ℚ × List ℚ))).length =
        tensor_number_nodes
          ([([1, 2], [5, 7]), ([3, 4], [11, 13])] :
            List (List ℚ × List ℚ)) ∧
      ∀ c, c < tensor_number_nodes
          ([([1, 2], [5, 7]), ([3, 4], [11, 13])] :
            List (List ℚ × List ℚ)) →
        ∃ pairs : List (ℚ × ℚ), pairs.length = 2 ∧
          (∀ d, d < 2 →
            pairs.getD d (0, 0) ∈
              ((([([1, 2], [5, 7]), ([3, 4], [11, 13])] :
                  List (List ℚ × List ℚ)).getD d ([], [])).1.zip
                (([([1, 2], [5, 7]), ([3, 4], [11, 13])] :
                  List (List ℚ × List ℚ)).getD d ([], [])).2)) ∧
          (tensor_product_nodes
            ([([1, 2], [5, 7]), ([3, 4], [11, 13])] :
              List (List ℚ × List ℚ))).getD c [] =
              pairs.map Prod.fst ∧
          (tensor_product_weights
            ([([1, 2], [5, 7]), ([3, 4], [11, 13])] :
              List (List ℚ × List ℚ))).getD c 0 =
              (pairs.map Prod.snd).prod :=
  tensor_product_nodes_weights
    ([([1, 2], [5, 7]), ([3, 4], [11, 13])] : List (List ℚ × List ℚ))
    (by decide) (by decide)

section DescrLemmas

variable {K O : Type} [LinearOrderedField K]

theorem qr1_reconstruct_roundtrip (q : QRule1 K O) (hq : q.valid) :
    q.get_description.reconstruct = some q := by
  cases q with
  | gaussHermite order opts =>
      show (if 0 < order then some (QRule1.gaussHermite order opts)
        else none) = _
      have hq2 : 0 < order := hq
      rw [if_pos hq2]
  | gaussLaguerre order a opts =>
      show (if 0 < order ∧ -1 < a then some (QRule1.gaussLaguerre order a opts)
        else none) = _
      have hq2 : 0 < order ∧ -1 < a := hq
      rw [if_pos hq2]

theorem qr1_list_reconstruct (rules : List (QRule1 K O))
    (hall : ∀ q ∈ rules, q.valid) :
    (rules.map QRule1.get_description).mapM QRDescr1.reconstruct =
      some rules := by
  induction rules with
  | nil => rfl
  | cons q qs ih =>
      rw [List.map_cons, List.mapM_cons,
        qr1_reconstruct_roundtrip q (hall q (by simp)),
        ih fun x hx => hall x (by simp [hx])]
      rfl

end DescrLemmas

/-- C9: for every valid constructed rule (Gauss-Hermite, Gauss-Laguerre,
or a tensor product of such rules), reconstructing a rule from the mapping
`get_description` returns — same type, order, `a` and options, with tensor
constituents re-composed from the nested `qr_rules` descriptions — yields
a rule whose recomputed node and weight arrays are identical to the
original's, for every root finder and choice of primitives. -/
theorem qr_description_roundtrip {K O : Type} [LinearOrderedField K]
    (sqrtf expf : K → K) (powf : K → K → K) (piv : K)
    (h_roots : ℕ → List K × List K) (la_roots : ℕ → K → List K × List K)
    (r : QRule K O) (hr : r.valid) :
    ∃ r2 : QRule K O, r.get_description.reconstruct = some r2 ∧
      QRule.build sqrtf expf powf piv h_roots la_roots r2 =
        QRule.build sqrtf expf powf piv h_roots la_roots r := by
  refine ⟨r, ?_, rfl⟩
  cases r with
  | one q =>
      show (QRule1.get_description q).reconstruct.map QRule.one =
        some (QRule.one q)
      rw [qr1_reconstruct_roundtrip q hr]
      rfl
  | tensorProduct rules opts =>
      show ((rules.map QRule1.get_description).mapM
          QRDescr1.reconstruct).map (fun rs => QRule.tensorProduct rs opts) =
        some (QRule.tensorProduct rules opts)
      rw [qr1_list_reconstruct rules hr.2]
      rfl

/-- A concrete instance of the C9 theorem: a tensor product of a
Gauss-Hermite rule of order 2 and a generalized Gauss-Laguerre rule of
order 3 with `a = 1` round-trips through its description. -/
theorem qr_description_roundtrip_witness :
    ∃ r2 : QRule ℚ ℕ,
      (QRule.tensorProduct
        [QRule1.gaussHermite 2 0, QRule1.gaussLaguerre 3 1 0]
        0).get_description.reconstruct = some r2 ∧
      QRule.build (id : ℚ → ℚ) (fun _ => 1) (fun _ _ => 1) 1
          (fun _ => ([], [])) (fun _ _ => ([], [])) r2 =
        QRule.build (id : ℚ → ℚ) (fun _ => 1) (fun _ _ => 1) 1
          (fun _ => ([], [])) (fun _ _ => ([], []))
          (QRule.tensorProduct
            [QRule1.gaussHermite 2 0, QRule1.gaussLaguerre 3 1 0] 0) :=
  qr_description_roundtrip (id : ℚ → ℚ) (fun _ => 1) (fun _ _ => 1) 1
    (fun _ => ([], [])) (fun _ _ => ([], []))
    (QRule.tensorProduct
      [QRule1.gaussHermite 2 0, QRule1.gaussLaguerre 3 1 0] 0)
    (by decide)
